import Mathlib

/-!
Verification development for `linx.py`, a Linux driver for the Lian Li 8.8"
Universal Screen (LCD display + LED ring over USB).

This file gives a shallow embedding of the driver's pure algorithmic core:

* the 512-byte encrypted command-frame builder `_make_header` together with a
  faithful implementation of DES-CBC / PKCS#7 (the cipher used via
  pycryptodome's `DES.new(key, MODE_CBC, iv)`), including a proved
  decrypt-of-encrypt round trip;
* the H.264 buffer-capacity query `check_h264_block`;
* the streaming flow-control logic (`_wait_buffer` and the per-chunk
  trigger in `play_h264`);
* the brightness / framerate clamping;
* the LED packet builder `set_leds` and its wrappers `set_all` / `off`;
* the ambilight edge sampler `sample_edge_colors`;
* a trace-level model of `play_h264` covering the missing-file early return.

Bytes are modelled as `Nat` (with explicit `% 256` where the source masks,
and `< 256` hypotheses where the source's `bytes` type guarantees byte
range).  Bits are `Bool`, a DES block is a `List Bool` of length 64 in the
standard DES bit numbering (bit 1 = most significant bit of the first byte).
-/

namespace Linx

/-! ## Generic byte/bit utilities -/

/-- One byte (0..255) to 8 bits, most significant bit first.  This matches
the DES convention where bit 1 of a block is the MSB of the first byte. -/
def byteToBits (n : Nat) : List Bool :=
  [n.testBit 7, n.testBit 6, n.testBit 5, n.testBit 4,
   n.testBit 3, n.testBit 2, n.testBit 1, n.testBit 0]

/-- Eight bits (MSB first) to the byte value they encode. -/
def bitsToByte (b7 b6 b5 b4 b3 b2 b1 b0 : Bool) : Nat :=
  (cond b7 128 0) + (cond b6 64 0) + (cond b5 32 0) + (cond b4 16 0) +
  (cond b3 8 0) + (cond b2 4 0) + (cond b1 2 0) + (cond b0 1 0)

/-- A bit string to bytes, consuming 8 bits (MSB first) per byte.  A trailing
group of fewer than 8 bits is dropped (never happens on DES data, whose
length is always a multiple of 8). -/
def bitsToBytes : List Bool → List Nat
  | b7 :: b6 :: b5 :: b4 :: b3 :: b2 :: b1 :: b0 :: rest =>
      bitsToByte b7 b6 b5 b4 b3 b2 b1 b0 :: bitsToBytes rest
  | _ => []

/-- Bitwise XOR of two bit strings (pointwise, truncating to the shorter). -/
def xorB (a b : List Bool) : List Bool := List.zipWith xor a b

/-- Split a byte string into chunks of `n` bytes; the last chunk may be
short.  For `n = 0` the result is empty (mirroring Python `f.read(0)`
returning `b''`). -/
def chunksOf (n : Nat) (xs : List Nat) : List (List Nat) :=
  if h : n = 0 then []
  else if h2 : xs = [] then []
  else xs.take n :: chunksOf n (xs.drop n)
termination_by xs.length
decreasing_by
  have hpos : 0 < xs.length := List.length_pos.mpr h2
  simp only [List.length_drop]
  omega

end Linx

namespace DES

/-! ## DES primitive (as implemented by pycryptodome, used with key = IV)

Standard single-DES from FIPS 46-3: initial permutation `IP`, 16 Feistel
rounds with round function `E`-expand / key-mix / S-boxes / `P`-permute,
half swap, final permutation `FP = IP⁻¹`.  Tables are 1-indexed as in the
standard. -/

/-- Apply a DES permutation/selection table: output position `p` (0-based)
receives input bit number `tbl[p]` (1-based). -/
def permute (tbl : List Nat) (b : List Bool) : List Bool :=
  tbl.map (fun j => b.getD (j - 1) false)

/-- Initial permutation IP. -/
def IP : List Nat :=
  [58, 50, 42, 34, 26, 18, 10, 2,
   60, 52, 44, 36, 28, 20, 12, 4,
   62, 54, 46, 38, 30, 22, 14, 6,
   64, 56, 48, 40, 32, 24, 16, 8,
   57, 49, 41, 33, 25, 17, 9, 1,
   59, 51, 43, 35, 27, 19, 11, 3,
   61, 53, 45, 37, 29, 21, 13, 5,
   63, 55, 47, 39, 31, 23, 15, 7]

/-- Final permutation FP = IP⁻¹. -/
def FP : List Nat :=
  [40, 8, 48, 16, 56, 24, 64, 32,
   39, 7, 47, 15, 55, 23, 63, 31,
   38, 6, 46, 14, 54, 22, 62, 30,
   37, 5, 45, 13, 53, 21, 61, 29,
   36, 4, 44, 12, 52, 20, 60, 28,
   35, 3, 43, 11, 51, 19, 59, 27,
   34, 2, 42, 10, 50, 18, 58, 26,
   33, 1, 41, 9, 49, 17, 57, 25]

/-- Expansion table E (32 bits to 48 bits). -/
def ETbl : List Nat :=
  [32, 1, 2, 3, 4, 5,
   4, 5, 6, 7, 8, 9,
   8, 9, 10, 11, 12, 13,
   12, 13, 14, 15, 16, 17,
   16, 17, 18, 19, 20, 21,
   20, 21, 22, 23, 24, 25,
   24, 25, 26, 27, 28, 29,
   28, 29, 30, 31, 32, 1]

/-- Round permutation P (32 bits to 32 bits). -/
def PTbl : List Nat :=
  [16, 7, 20, 21,
   29, 12, 28, 17,
   1, 15, 23, 26,
   5, 18, 31, 10,
   2, 8, 24, 14,
   32, 27, 3, 9,
   19, 13, 30, 6,
   22, 11, 4, 25]

/-- Permuted choice 1 (64-bit key to 56 bits). -/
def PC1 : List Nat :=
  [57, 49, 41, 33, 25, 17, 9,
   1, 58, 50, 42, 34, 26, 18,
   10, 2, 59, 51, 43, 35, 27,
   19, 11, 3, 60, 52, 44, 36,
   63, 55, 47, 39, 31, 23, 15,
   7, 62, 54, 46, 38, 30, 22,
   14, 6, 61, 53, 45, 37, 29,
   21, 13, 5, 28, 20, 12, 4]

/-- Permuted choice 2 (56 bits to 48-bit subkey). -/
def PC2 : List Nat :=
  [14, 17, 11, 24, 1, 5,
   3, 28, 15, 6, 21, 10,
   23, 19, 12, 4, 26, 8,
   16, 7, 27, 20, 13, 2,
   41, 52, 31, 37, 47, 55,
   30, 40, 51, 45, 33, 48,
   44, 49, 39, 56, 34, 53,
   46, 42, 50, 36, 29, 32]

/-- Per-round left-rotation amounts for the key schedule. -/
def SHIFTS : List Nat := [1, 1, 2, 2, 2, 2, 2, 2, 1, 2, 2, 2, 2, 2, 2, 1]

/-- The eight S-boxes; each is 64 entries laid out as 4 rows of 16. -/
def SBOXES : List (List Nat) :=
  [[14, 4, 13, 1, 2, 15, 11, 8, 3, 10, 6, 12, 5, 9, 0, 7,
    0, 15, 7, 4, 14, 2, 13, 1, 10, 6, 12, 11, 9, 5, 3, 8,
    4, 1, 14, 8, 13, 6, 2, 11, 15, 12, 9, 7, 3, 10, 5, 0,
    15, 12, 8, 2, 4, 9, 1, 7, 5, 11, 3, 14, 10, 0, 6, 13],
   [15, 1, 8, 14, 6, 11, 3, 4, 9, 7, 2, 13, 12, 0, 5, 10,
    3, 13, 4, 7, 15, 2, 8, 14, 12, 0, 1, 10, 6, 9, 11, 5,
    0, 14, 7, 11, 10, 4, 13, 1, 5, 8, 12, 6, 9, 3, 2, 15,
    13, 8, 10, 1, 3, 15, 4, 2, 11, 6, 7, 12, 0, 5, 14, 9],
   [10, 0, 9, 14, 6, 3, 15, 5, 1, 13, 12, 7, 11, 4, 2, 8,
    13, 7, 0, 9, 3, 4, 6, 10, 2, 8, 5, 14, 12, 11, 15, 1,
    13, 6, 4, 9, 8, 15, 3, 0, 11, 1, 2, 12, 5, 10, 14, 7,
    1, 10, 13, 0, 6, 9, 8, 7, 4, 15, 14, 3, 11, 5, 2, 12],
   [7, 13, 14, 3, 0, 6, 9, 10, 1, 2, 8, 5, 11, 12, 4, 15,
    13, 8, 11, 5, 6, 15, 0, 3, 4, 7, 2, 12, 1, 10, 14, 9,
    10, 6, 9, 0, 12, 11, 7, 13, 15, 1, 3, 14, 5, 2, 8, 4,
    3, 15, 0, 6, 10, 1, 13, 8, 9, 4, 5, 11, 12, 7, 2, 14],
   [2, 12, 4, 1, 7, 10, 11, 6, 8, 5, 3, 15, 13, 0, 14, 9,
    14, 11, 2, 12, 4, 7, 13, 1, 5, 0, 15, 10, 3, 9, 8, 6,
    4, 2, 1, 11, 10, 13, 7, 8, 15, 9, 12, 5, 6, 3, 0, 14,
    11, 8, 12, 7, 1, 14, 2, 13, 6, 15, 0, 9, 10, 4, 5, 3],
   [12, 1, 10, 15, 9, 2, 6, 8, 0, 13, 3, 4, 14, 7, 5, 11,
    10, 15, 4, 2, 7, 12, 9, 5, 6, 1, 13, 14, 0, 11, 3, 8,
    9, 14, 15, 5, 2, 8, 12, 3, 7, 0, 4, 10, 1, 13, 11, 6,
    4, 3, 2, 12, 9, 5, 15, 10, 11, 14, 1, 7, 6, 0, 8, 13],
   [4, 11, 2, 14, 15, 0, 8, 13, 3, 12, 9, 7, 5, 10, 6, 1,
    13, 0, 11, 7, 4, 9, 1, 10, 14, 3, 5, 12, 2, 15, 8, 6,
    1, 4, 11, 13, 12, 3, 7, 14, 10, 15, 6, 8, 0, 5, 9, 2,
    6, 11, 13, 8, 1, 4, 10, 7, 9, 5, 0, 15, 14, 2, 3, 12],
   [13, 2, 8, 4, 6, 15, 11, 1, 10, 9, 3, 14, 5, 0, 12, 7,
    1, 15, 13, 8, 10, 3, 7, 4, 12, 5, 6, 11, 0, 14, 9, 2,
    7, 11, 4, 1, 9, 12, 14, 2, 0, 6, 10, 13, 15, 3, 5, 8,
    2, 1, 14, 7, 4, 10, 8, 13, 15, 12, 9, 0, 3, 5, 6, 11]]

/-- Look up S-box `i` on six input bits: row = bits 1 and 6, column =
bits 2..5; emit the 4-bit result MSB first. -/
def sboxLookup (i : Nat) (b1 b2 b3 b4 b5 b6 : Bool) : List Bool :=
  let row := (cond b1 2 0) + (cond b6 1 0)
  let col := (cond b2 8 0) + (cond b3 4 0) + (cond b4 2 0) + (cond b5 1 0)
  let v := (SBOXES.getD i []).getD (row * 16 + col) 0
  [v.testBit 3, v.testBit 2, v.testBit 1, v.testBit 0]

/-- Run the 48-bit S-box stage: 8 groups of 6 bits each map to 4 bits. -/
def sboxAll (i : Nat) : List Bool → List Bool
  | b1 :: b2 :: b3 :: b4 :: b5 :: b6 :: rest =>
      sboxLookup i b1 b2 b3 b4 b5 b6 ++ sboxAll (i + 1) rest
  | _ => []

/-- The DES round function `f(R, K) = P(S(E(R) ⊕ K))`. -/
def feistelF (k R : List Bool) : List Bool :=
  permute PTbl (sboxAll 0 (Linx.xorB (permute ETbl R) k))

/-- Left-rotate a 28-bit key half by `n`. -/
def rotl (n : Nat) (l : List Bool) : List Bool := l.drop n ++ l.take n

/-- Key schedule loop: per shift amount, rotate both halves and extract the
round subkey through PC2. -/
def subkeysGo : List Nat → List Bool → List Bool → List (List Bool)
  | [], _, _ => []
  | s :: rest, c, d =>
      let c' := rotl s c
      let d' := rotl s d
      permute PC2 (c' ++ d') :: subkeysGo rest c' d'

/-- The 16 48-bit round subkeys of a 64-bit key. -/
def subkeys (key : List Bool) : List (List Bool) :=
  let k := permute PC1 key
  subkeysGo SHIFTS (k.take 28) (k.drop 28)

/-- The 16 Feistel rounds: `(L, R) ↦ (R, L ⊕ f(R, k))` per subkey. -/
def desRounds : List (List Bool) → List Bool × List Bool → List Bool × List Bool
  | [], p => p
  | k :: ks, (L, R) => desRounds ks (R, Linx.xorB L (feistelF k R))

/-- Encrypt one 64-bit block with the given subkey list. -/
def desBlockWith (ks : List (List Bool)) (block : List Bool) : List Bool :=
  let b := permute IP block
  let p := desRounds ks (b.take 32, b.drop 32)
  permute FP (p.2 ++ p.1)

/-- DES single-block encryption. -/
def encryptBlock (key block : List Bool) : List Bool :=
  desBlockWith (subkeys key) block

/-- DES single-block decryption: identical structure with the subkeys in
reverse order. -/
def decryptBlock (key block : List Bool) : List Bool :=
  desBlockWith (subkeys key).reverse block

/-- CBC encryption over a list of 64-bit blocks with chaining value `prev`:
`cᵢ = E(pᵢ ⊕ cᵢ₋₁)`. -/
def cbcEncBlocks (key : List Bool) : List Bool → List (List Bool) → List (List Bool)
  | _, [] => []
  | prev, p :: ps =>
      let c := encryptBlock key (Linx.xorB p prev)
      c :: cbcEncBlocks key c ps

/-- CBC decryption over a list of 64-bit blocks: `pᵢ = D(cᵢ) ⊕ cᵢ₋₁`. -/
def cbcDecBlocks (key : List Bool) : List Bool → List (List Bool) → List (List Bool)
  | _, [] => []
  | prev, c :: cs =>
      Linx.xorB (decryptBlock key c) prev :: cbcDecBlocks key c cs

end DES

namespace Linx

/-- The fixed DES key and IV, ASCII `"slv3tuzx"` (`DES_KEY` in the source). -/
def DES_KEY : List Nat := [0x73, 0x6C, 0x76, 0x33, 0x74, 0x75, 0x7A, 0x78]

/-- DES-CBC encrypt with PKCS#7 padding, key = IV = `"slv3tuzx"`; embeds
`_des_encrypt` (the pycryptodome call is standard DES-CBC). -/
def des_encrypt (data : List Nat) : List Nat :=
  let padLen := 8 - data.length % 8
  let padded := data ++ List.replicate padLen padLen
  let keyBits := (DES_KEY.map byteToBits).flatten
  let blocks := (chunksOf 8 padded).map (fun c => (c.map byteToBits).flatten)
  ((DES.cbcEncBlocks keyBits keyBits blocks).map bitsToBytes).flatten

/-- DES-CBC decryption (without PKCS#7 unpadding) with key = IV =
`"slv3tuzx"`: the standard inverse of the cipher layer of `des_encrypt`,
used to state the round-trip property of the command frames. -/
def des_decrypt_raw (ct : List Nat) : List Nat :=
  let keyBits := (DES_KEY.map byteToBits).flatten
  let blocks := (chunksOf 8 ct).map (fun c => (c.map byteToBits).flatten)
  ((DES.cbcDecBlocks keyBits keyBits blocks).map bitsToBytes).flatten

/-! ## Command frame builder (`_make_header`) -/

/-- Little-endian 4-byte encoding of the 32-bit timestamp, as written by
`struct.pack_into` with format `<I`. -/
def tsBytes (ts : Nat) : List Nat :=
  [ts % 256, ts / 256 % 256, ts / 65536 % 256, ts / 16777216 % 256]

/-- The argument-copy loop of `_make_header`: each byte `b` of `args` is
written at offset `8 + i` provided `8 + i < 500`. -/
def writeArgs : List Nat → List Nat → Nat → List Nat
  | buf, [], _ => buf
  | buf, b :: rest, i =>
      writeArgs (if 8 + i < 500 then buf.set (8 + i) b else buf) rest (i + 1)

/-- The 500-byte plaintext built by `_make_header` (`GetBaseCmdBuf` layout):
a zeroed buffer with `buf[0] = cmd & 0xFF`, `buf[2] = 0x1A`,
`buf[3] = 0x6D`, `buf[4:8]` the little-endian timestamp, and the arguments
copied in from offset 8. -/
def headerPlain (cmd : Nat) (args : List Nat) (ts : Nat) : List Nat :=
  writeArgs ([cmd % 256, 0, 0x1A, 0x6D] ++ tsBytes ts ++ List.replicate 492 0) args 0

/-- Embeds `_make_header`: encrypt the 500-byte plaintext, copy the
ciphertext (at most 512 bytes of it) into a zeroed 512-byte packet, then
overwrite bytes 510 and 511 with the trailer `0xA1, 0x1A`.  The timestamp,
the only nondeterministic input in the source (`_ts()`), is an explicit
parameter. -/
def make_header (cmd : Nat) (args : List Nat) (ts : Nat) : List Nat :=
  let encrypted := des_encrypt (headerPlain cmd args ts)
  let e := encrypted.take 512
  let packet := e ++ List.replicate (512 - e.length) 0
  (packet.set 510 0xA1).set 511 0x1A

/-! ## H.264 buffer capacity (`check_h264_block`) -/

/-- Default streaming chunk capacity: the initial value of
`self.h264_buf_len`. -/
def default_h264_buf_len : Nat := 202752

/-- Parse the device-reported H.264 block size: the big-endian 32-bit
integer at response bytes 8..11,
`(resp[8] << 24) | (resp[9] << 16) | (resp[10] << 8) | resp[11]`. -/
def h264_size (r : List Nat) : Nat :=
  ((((r.getD 8 0) <<< 24) ||| ((r.getD 9 0) <<< 16)) ||| ((r.getD 10 0) <<< 8)) |||
    r.getD 11 0

/-- State transition of `check_h264_block`: from the optional response to
`CMD_GET_H264_BLOCK` and the current `h264_buf_len`, produce the method's
return value together with the new `h264_buf_len`.  A falsy or short
response, or a parsed size of 0, leaves the capacity unchanged. -/
def check_h264_block (resp : Option (List Nat)) (bufLen : Nat) : Nat × Nat :=
  match resp with
  | some r =>
      if r ≠ [] ∧ 11 < r.length then
        let size := h264_size r
        if 0 < size then (size, size) else (bufLen, bufLen)
      else (bufLen, bufLen)
  | none => (bufLen, bufLen)

/-! ## Streaming flow control (`_wait_buffer`, `play_h264` chunk loop) -/

/-- Slot-specific buffer-depth offset: the `buf_idx` lookup
`{CMD_START_PLAY: 8, CMD_START_PLAY1: 9, CMD_START_PLAY2: 10}.get(play_cmd, 8)`
with `CMD_START_PLAY = 121`, `CMD_START_PLAY1 = 119`,
`CMD_START_PLAY2 = 120`. -/
def play_buf_idx (playCmd : Nat) : Nat :=
  if playCmd = 121 then 8
  else if playCmd = 119 then 9
  else if playCmd = 120 then 10
  else 8

/-- Success test of one `_wait_buffer` poll:
`resp and len(resp) > buf_idx and resp[buf_idx] <= max_blocks`.  A `None`
response and a USB exception both just continue the loop, so both are
modelled by `none`. -/
def wait_ok (resp : Option (List Nat)) (bufIdx maxBlocks : Nat) : Bool :=
  match resp with
  | some r =>
      !r.isEmpty && decide (bufIdx < r.length) && decide (r.getD bufIdx 0 ≤ maxBlocks)
  | none => false

/-- The `for _ in range(200)` polling loop of `_wait_buffer`: starting at
poll index `i` with `fuel` iterations remaining, return the total number of
polls performed; `polls i` is the response to the `i`-th `query_block`. -/
def wait_buffer_go (polls : Nat → Option (List Nat)) (bufIdx maxBlocks : Nat) :
    Nat → Nat → Nat
  | i, 0 => i
  | i, fuel + 1 =>
      if wait_ok (polls i) bufIdx maxBlocks then i + 1
      else wait_buffer_go polls bufIdx maxBlocks (i + 1) fuel

/-- Number of `query_block` polls performed by
`_wait_buffer(max_blocks, play_cmd)`. -/
def wait_buffer (polls : Nat → Option (List Nat)) (maxBlocks playCmd : Nat) : Nat :=
  wait_buffer_go polls (play_buf_idx playCmd) maxBlocks 0 200

/-- Flow-control trigger after a chunk send in `play_h264`:
`resp and len(resp) > buf_idx and resp[buf_idx] > 3`. -/
def chunk_triggers_wait (resp : Option (List Nat)) (bufIdx : Nat) : Bool :=
  match resp with
  | some r =>
      !r.isEmpty && decide (bufIdx < r.length) && decide (3 < r.getD bufIdx 0)
  | none => false

/-- Number of `query_block` polls performed between sending one chunk and
reading the next chunk of file bytes: `_wait_buffer(2, play_cmd)` runs
exactly when the trigger fires, otherwise the loop reads the next chunk at
once. -/
def chunk_step_polls (resp : Option (List Nat)) (polls : Nat → Option (List Nat))
    (playCmd : Nat) : Nat :=
  if chunk_triggers_wait resp (play_buf_idx playCmd) then wait_buffer polls 2 playCmd
  else 0

/-! ## Brightness / framerate clamping -/

/-- Argument byte emitted by `set_brightness`: `max(0, min(100, level))`. -/
def set_brightness_arg (level : Int) : Int := max 0 (min 100 level)

/-- Argument byte emitted by `set_framerate`: `max(1, min(99, fps))`. -/
def set_framerate_arg (fps : Int) : Int := max 1 (min 99 fps)

/-! ## LED ring controller (`set_leds`, `set_all`, `off`) -/

/-- Number of LEDs on the ring (`LEDDevice.NUM_LEDS`). -/
def NUM_LEDS : Nat := 60

/-- LEDs per packet group (`LEDDevice.LEDS_PER_GROUP`). -/
def LEDS_PER_GROUP : Nat := 20

/-- The 64-byte HID packet for LED group `group` (one iteration of the
`set_leds` loop): header bytes `[17, group*20, 0, 0]`, then 20 RGB triples
(masked `& 0xFF`) at offsets 4..63; positions whose LED index falls beyond
the input list keep the zero fill of the fresh `bytearray(64)`. -/
def led_packet (group : Nat) (leds : List (Nat × Nat × Nat)) : List Nat :=
  [17, group * LEDS_PER_GROUP, 0, 0] ++
    ((List.range LEDS_PER_GROUP).map (fun i =>
      let idx := group * LEDS_PER_GROUP + i
      if idx < leds.length then
        let c := leds.getD idx (0, 0, 0)
        [c.1 % 256, c.2.1 % 256, c.2.2 % 256]
      else [0, 0, 0])).flatten

/-- The three 64-byte packets emitted by one `set_leds` call, groups in
order 0, 1, 2. -/
def set_leds (leds : List (Nat × Nat × Nat)) : List (List Nat) :=
  (List.range 3).map (fun g => led_packet g leds)

/-- Packets emitted by `set_all(r, g, b)`. -/
def set_all (r g b : Nat) : List (List Nat) :=
  set_leds (List.replicate NUM_LEDS (r, g, b))

/-- Packets emitted by `off()`. -/
def led_off : List (List Nat) := set_all 0 0 0

/-! ## Ambilight edge sampler (`sample_edge_colors`) -/

/-- An RGB image: dimensions and a pixel map `(x, y) ↦ (r, g, b)`. -/
structure Img where
  w : Nat
  h : Nat
  px : Nat → Nat → Nat × Nat × Nat

/-- Uniform-colour image. -/
def constImg (w h : Nat) (c : Nat × Nat × Nat) : Img := ⟨w, h, fun _ _ => c⟩

/-- Pixels of the crop region `[x0, x1) × [y0, y1)` in row-major order, as
produced by `img.crop((x0, y0, x1, y1)).getdata()`. -/
def cropPixels (img : Img) (x0 y0 x1 y1 : Nat) : List (Nat × Nat × Nat) :=
  ((List.range (y1 - y0)).map (fun dy =>
    (List.range (x1 - x0)).map (fun dx => img.px (x0 + dx) (y0 + dy)))).flatten

/-- Perimeter walk position to pixel coordinates: bottom edge L→R, right
edge B→T, top edge R→L, left edge T→B.  `pos` is the distance along the
walk; Python's `int(pos)` truncation equals the floor because `pos ≥ 0` at
every call site. -/
def edgePoint (w h : Nat) (pos : ℚ) : Nat × Nat :=
  if pos < (w : ℚ) then ((⌊pos⌋).toNat, h - 1)
  else if pos < (w : ℚ) + (h : ℚ) then
    (w - 1, h - 1 - (⌊pos - (w : ℚ)⌋).toNat)
  else if pos < 2 * (w : ℚ) + (h : ℚ) then
    (w - 1 - (⌊pos - (w : ℚ) - (h : ℚ)⌋).toNat, 0)
  else (0, (⌊pos - 2 * (w : ℚ) - (h : ℚ)⌋).toNat)

/-- Average of an 8×8 block clipped to the frame around `(cx, cy)`
(`sample_size = 8`, `sample_size // 2 = 4`): componentwise integer mean of
the crop region, `(0, 0, 0)` when the region is empty.  `max(0, cx - 4)` is
natural subtraction. -/
def samplePoint (img : Img) (cx cy : Nat) : Nat × Nat × Nat :=
  let x0 := cx - 4
  let y0 := cy - 4
  let x1 := min img.w (x0 + 8)
  let y1 := min img.h (y0 + 8)
  let pixels := cropPixels img x0 y0 x1 y1
  if pixels.isEmpty then (0, 0, 0)
  else
    ((pixels.map (fun p => p.1)).sum / pixels.length,
     (pixels.map (fun p => p.2.1)).sum / pixels.length,
     (pixels.map (fun p => p.2.2)).sum / pixels.length)

/-- Embeds `sample_edge_colors`: `numLeds` evenly spaced perimeter
positions with `step = perimeter / num_leds`, each block-averaged.  The
Python float arithmetic is modelled by exact rationals; on the inputs the
claims quantify over (length facts, and 480×1920 with 60 LEDs, where
`step = 80.0` and every position is a small integer) the float computation
is exact, so the models agree. -/
def sample_edge_colors (img : Img) (numLeds : Nat) : List (Nat × Nat × Nat) :=
  let step : ℚ := ((2 * (img.w + img.h) : Nat) : ℚ) / (numLeds : ℚ)
  (List.range numLeds).map (fun (i : Nat) =>
    let pos := (i : ℚ) * step
    let point := edgePoint img.w img.h pos
    samplePoint img point.1 point.2)

/-! ## Trace model of `play_h264` -/

/-- One USB operation issued by the streamer. -/
inductive UsbOp where
  | sendCmd (cmd : Nat)
  | sendPayload (cmd : Nat) (chunkLen : Nat)

/-- Trace model of a single pass of `play_h264` (the `loop=False` path,
which also covers the prefix every looping run shares): a missing file
returns `False` immediately, with no USB traffic of any kind; otherwise the
run queries the buffer capacity (command 17), sends every chunk as command
`playCmd` with the chunk as trailing payload (a 512-byte header plus
`chunkLen` bytes in one transfer), runs the flow-control polls (command
122) dictated by each chunk's response, and finishes with `stop_play`
(command 123).  `resps k` is the response to chunk `k`, `polls k` the poll
responses during the wait after chunk `k`. -/
def play_h264_run (fileExists : Bool) (fileBytes : List Nat) (bufLen playCmd : Nat)
    (resps : Nat → Option (List Nat)) (polls : Nat → Nat → Option (List Nat)) :
    Bool × List UsbOp :=
  if fileExists = false then (false, [])
  else
    (true,
      UsbOp.sendCmd 17 ::
        ((((chunksOf bufLen fileBytes).enum.map (fun kc =>
          UsbOp.sendPayload playCmd kc.2.length ::
            List.replicate (chunk_step_polls (resps kc.1) (polls kc.1) playCmd)
              (UsbOp.sendCmd 122))).flatten)
          ++ [UsbOp.sendCmd 123]))

end Linx

/-! # Proofs -/

namespace Linx

/-- Unfolding equation for `xorB` on two cons cells. -/
theorem xorB_cons (a b : Bool) (as bs : List Bool) :
    xorB (a :: as) (b :: bs) = xor a b :: xorB as bs := rfl

/-- Pointwise XOR length. -/
theorem length_xorB (a b : List Bool) : (xorB a b).length = min a.length b.length := by
  simp [xorB]

/-- XOR twice with the same equal-length mask is the identity. -/
theorem xorB_xorB (a : List Bool) : ∀ b : List Bool, a.length = b.length →
    xorB (xorB a b) b = a := by
  induction a with
  | nil => intro b h; cases b <;> simp [xorB]
  | cons x xs ih =>
      intro b h
      cases b with
      | nil => simp at h
      | cons y ys =>
          have hx : xor (xor x y) y = x := by cases x <;> cases y <;> rfl
          rw [xorB_cons, xorB_cons, hx, ih ys (by simpa using h)]

/-- Flattening the chunks recovers the original byte string. -/
theorem flatten_chunksOf (n : Nat) (hn : 0 < n) (xs : List Nat) :
    (chunksOf n xs).flatten = xs := by
  rw [chunksOf]
  split
  · omega
  · split
    · simp [*]
    · rw [List.flatten_cons, flatten_chunksOf n hn (xs.drop n), List.take_append_drop]
termination_by xs.length
decreasing_by
  rename_i h1 h2
  have hpos : 0 < xs.length := List.length_pos.mpr h2
  simp only [List.length_drop]
  omega

/-- Unfolding of `chunksOf` on the empty list. -/
theorem chunksOf_nil (n : Nat) : chunksOf n [] = [] := by
  rw [chunksOf]
  split <;> simp

/-- Unfolding of `chunksOf n` for `n ≠ 0` on a nonempty list. -/
theorem chunksOf_ne (n : Nat) (hn : n ≠ 0) (xs : List Nat) (hx : xs ≠ []) :
    chunksOf n xs = xs.take n :: chunksOf n (xs.drop n) := by
  rw [chunksOf, dif_neg hn, dif_neg hx]

/-- When the length is a multiple of 8, every chunk of `chunksOf 8` has
exactly 8 bytes. -/
theorem chunksOf8_lengths (xs : List Nat) (hd : xs.length % 8 = 0) :
    ∀ c ∈ chunksOf 8 xs, c.length = 8 := by
  by_cases hx : xs = []
  · subst hx
    simp [chunksOf_nil]
  · have hpos : 0 < xs.length := List.length_pos.mpr hx
    have hrec := chunksOf8_lengths (xs.drop 8)
      (by simp only [List.length_drop]; omega)
    rw [chunksOf_ne 8 (by omega) xs hx]
    intro c hc
    rcases List.mem_cons.mp hc with h | h
    · subst h
      simp only [List.length_take]
      omega
    · exact hrec c h
termination_by xs.length
decreasing_by
  simp only [List.length_drop]
  omega

/-- Chunk count of `chunksOf 8` (ceiling division). -/
theorem length_chunksOf8 (xs : List Nat) :
    (chunksOf 8 xs).length = (xs.length + 7) / 8 := by
  by_cases hx : xs = []
  · subst hx
    simp [chunksOf_nil]
  · have hpos : 0 < xs.length := List.length_pos.mpr hx
    rw [chunksOf_ne 8 (by omega) xs hx, List.length_cons,
      length_chunksOf8 (xs.drop 8)]
    simp only [List.length_drop]
    omega
termination_by xs.length
decreasing_by
  simp only [List.length_drop]
  omega

/-- Chunking a flattening of length-8 pieces recovers the pieces. -/
theorem chunksOf8_flatten (ls : List (List Nat)) (h : ∀ l ∈ ls, l.length = 8) :
    chunksOf 8 ls.flatten = ls := by
  induction ls with
  | nil => exact chunksOf_nil 8
  | cons l ls ih =>
      have hl : l.length = 8 := h l (by simp)
      have hne : l ++ ls.flatten ≠ [] := by
        intro hc
        have := congrArg List.length hc
        simp [hl] at this
      rw [List.flatten_cons, chunksOf_ne 8 (by omega) _ hne]
      rw [List.take_left' hl, List.drop_left' hl, ih (fun q hq => h q (by simp [hq]))]

set_option maxRecDepth 4096 in
/-- Byte to bits to byte round trip. -/
theorem bitsToByte_testBits : ∀ n < 256,
    bitsToByte (n.testBit 7) (n.testBit 6) (n.testBit 5) (n.testBit 4)
      (n.testBit 3) (n.testBit 2) (n.testBit 1) (n.testBit 0) = n := by decide

/-- Bits to byte to bits round trip. -/
theorem byteToBits_bitsToByte : ∀ b7 b6 b5 b4 b3 b2 b1 b0 : Bool,
    byteToBits (bitsToByte b7 b6 b5 b4 b3 b2 b1 b0) =
      [b7, b6, b5, b4, b3, b2, b1, b0] := by decide

/-- Converting a byte string to bits and back is the identity on genuine
bytes. -/
theorem bitsToBytes_flatten_byteToBits (l : List Nat) (h : ∀ b ∈ l, b < 256) :
    bitsToBytes ((l.map byteToBits).flatten) = l := by
  induction l with
  | nil => rfl
  | cons b rest ih =>
      have hb : b < 256 := h b (by simp)
      show bitsToBytes (byteToBits b ++ (rest.map byteToBits).flatten) = b :: rest
      rw [byteToBits]
      show bitsToByte (b.testBit 7) (b.testBit 6) (b.testBit 5) (b.testBit 4)
            (b.testBit 3) (b.testBit 2) (b.testBit 1) (b.testBit 0)
          :: bitsToBytes ((rest.map byteToBits).flatten) = b :: rest
      rw [bitsToByte_testBits b hb, ih (fun q hq => h q (by simp [hq]))]

/-- Converting a bit string of length `8 * k` to bytes and back is the
identity. -/
theorem flatten_byteToBits_bitsToBytes : ∀ (k : Nat) (l : List Bool),
    l.length = 8 * k → ((bitsToBytes l).map byteToBits).flatten = l := by
  intro k
  induction k with
  | zero =>
      intro l hl
      rw [List.length_eq_zero.mp hl]
      rfl
  | succ k ih =>
      intro l hl
      match l with
      | b7 :: b6 :: b5 :: b4 :: b3 :: b2 :: b1 :: b0 :: rest =>
          show ((bitsToByte b7 b6 b5 b4 b3 b2 b1 b0 :: bitsToBytes rest).map
              byteToBits).flatten = _
          rw [List.map_cons, List.flatten_cons, byteToBits_bitsToByte,
            ih rest (by simp at hl; omega)]
          rfl
      | [] => simp at hl
      | [b7] => simp at hl; omega
      | [b7, b6] => simp at hl; omega
      | [b7, b6, b5] => simp at hl; omega
      | [b7, b6, b5, b4] => simp at hl; omega
      | [b7, b6, b5, b4, b3] => simp at hl; omega
      | [b7, b6, b5, b4, b3, b2] => simp at hl; omega
      | [b7, b6, b5, b4, b3, b2, b1] => simp at hl; omega

/-- Length of `bitsToBytes` on an exact multiple of 8 bits. -/
theorem length_bitsToBytes_mul : ∀ (k : Nat) (l : List Bool),
    l.length = 8 * k → (bitsToBytes l).length = k := by
  intro k
  induction k with
  | zero =>
      intro l hl
      rw [List.length_eq_zero.mp hl]
      rfl
  | succ k ih =>
      intro l hl
      match l with
      | b7 :: b6 :: b5 :: b4 :: b3 :: b2 :: b1 :: b0 :: rest =>
          show (bitsToByte b7 b6 b5 b4 b3 b2 b1 b0 :: bitsToBytes rest).length = k + 1
          rw [List.length_cons, ih rest (by simp at hl; omega)]
      | [] => simp at hl
      | [b7] => simp at hl; omega
      | [b7, b6] => simp at hl; omega
      | [b7, b6, b5] => simp at hl; omega
      | [b7, b6, b5, b4] => simp at hl; omega
      | [b7, b6, b5, b4, b3] => simp at hl; omega
      | [b7, b6, b5, b4, b3, b2] => simp at hl; omega
      | [b7, b6, b5, b4, b3, b2, b1] => simp at hl; omega

/-- Length of the bit string of a byte string. -/
theorem length_flatten_byteToBits (l : List Nat) :
    ((l.map byteToBits).flatten).length = 8 * l.length := by
  induction l with
  | nil => rfl
  | cons b rest ih =>
      rw [List.map_cons, List.flatten_cons, List.length_append, ih]
      simp [byteToBits]
      omega

end Linx

namespace DES

/-- Output length of a permutation table application. -/
theorem length_permute (tbl : List Nat) (b : List Bool) :
    (permute tbl b).length = tbl.length := by
  simp [permute]

/-- The round function always yields 32 bits (the size of `PTbl`). -/
theorem length_feistelF (k R : List Bool) : (feistelF k R).length = 32 := by
  rw [feistelF, length_permute]
  rfl

/-- The Feistel rounds keep both halves at 32 bits. -/
theorem desRounds_lengths (ks : List (List Bool)) :
    ∀ L R : List Bool, L.length = 32 → R.length = 32 →
    (desRounds ks (L, R)).1.length = 32 ∧ (desRounds ks (L, R)).2.length = 32 := by
  induction ks with
  | nil => intro L R hL hR; exact ⟨hL, hR⟩
  | cons k ks ih =>
      intro L R hL hR
      have hR' : (Linx.xorB L (feistelF k R)).length = 32 := by
        simp [Linx.length_xorB, hL, length_feistelF]
      exact ih R (Linx.xorB L (feistelF k R)) hR hR'

/-- The rounds over an appended key list compose. -/
theorem desRounds_append (xs ys : List (List Bool)) :
    ∀ p : List Bool × List Bool,
    desRounds (xs ++ ys) p = desRounds ys (desRounds xs p) := by
  induction xs with
  | nil => intro p; rfl
  | cons k ks ih =>
      intro p
      obtain ⟨L, R⟩ := p
      rw [List.cons_append]
      show desRounds (ks ++ ys) (R, Linx.xorB L (feistelF k R)) = _
      exact ih _

/-- Running the rounds with the reversed key list on the swapped output
undoes the rounds: the heart of DES decryption. -/
theorem desRounds_reverse (ks : List (List Bool)) :
    ∀ L R : List Bool, L.length = 32 → R.length = 32 →
    desRounds ks.reverse ((desRounds ks (L, R)).2, (desRounds ks (L, R)).1) = (R, L) := by
  induction ks with
  | nil => intro L R _ _; rfl
  | cons k ks ih =>
      intro L R hL hR
      have hf : (feistelF k R).length = 32 := length_feistelF k R
      have hR' : (Linx.xorB L (feistelF k R)).length = 32 := by
        simp [Linx.length_xorB, hL, hf]
      rw [List.reverse_cons]
      have hstep : desRounds (k :: ks) (L, R) =
          desRounds ks (R, Linx.xorB L (feistelF k R)) := rfl
      rw [hstep, desRounds_append, ih R (Linx.xorB L (feistelF k R)) hR hR']
      show (R, Linx.xorB (Linx.xorB L (feistelF k R)) (feistelF k R)) = (R, L)
      rw [Linx.xorB_xorB L (feistelF k R) (by rw [hL, hf])]

/-- Composition of two permutation tables. -/
theorem permute_permute (t2 t1 : List Nat) (b : List Bool)
    (h : ∀ j ∈ t2, j - 1 < t1.length) :
    permute t2 (permute t1 b) = permute (t2.map (fun j => t1.getD (j - 1) 0)) b := by
  simp only [permute, List.map_map]
  apply List.map_congr_left
  intro j hj
  have hjl : j - 1 < t1.length := h j hj
  simp only [Function.comp_apply]
  rw [List.getD_eq_getElem?_getD, List.getElem?_map,
    List.getElem?_eq_getElem hjl]
  simp [List.getD_eq_getElem?_getD, List.getElem?_eq_getElem hjl]

/-- Applying the identity table `[1, 2, …, n]` to a list of length `n` is
the identity. -/
theorem map_getD_range (b : List Bool) :
    (List.range b.length).map (fun k => b.getD k false) = b := by
  induction b with
  | nil => rfl
  | cons x xs ih =>
      rw [List.length_cons, List.range_succ_eq_map, List.map_cons, List.map_map]
      show (x :: xs).getD 0 false :: _ = _
      rw [List.getD_cons_zero]
      refine congrArg (x :: ·) ?_
      calc (List.range xs.length).map ((fun k => (x :: xs).getD k false) ∘ Nat.succ)
      _ = (List.range xs.length).map (fun k => xs.getD k false) := by
          apply List.map_congr_left
          intro a _
          simp [List.getD_cons_succ]
      _ = xs := ih

/-- The 64-entry identity permutation is the identity on 64-bit blocks. -/
theorem permute_id64 (b : List Bool) (h : b.length = 64) :
    permute ((List.range 64).map (fun k => k + 1)) b = b := by
  simp only [permute, List.map_map]
  have heq : ((fun j => b.getD (j - 1) false) ∘ fun k => k + 1) =
      fun k => b.getD k false := by
    funext k
    simp
  rw [heq, ← h, map_getD_range]

/-- FP composed with IP is the identity table. -/
theorem FP_IP_comp : FP.map (fun j => IP.getD (j - 1) 0) =
    (List.range 64).map (fun k => k + 1) := by decide

/-- IP composed with FP is the identity table. -/
theorem IP_FP_comp : IP.map (fun j => FP.getD (j - 1) 0) =
    (List.range 64).map (fun k => k + 1) := by decide

/-- The final permutation undoes the initial permutation. -/
theorem permute_FP_IP (b : List Bool) (h : b.length = 64) :
    permute FP (permute IP b) = b := by
  rw [permute_permute FP IP b (by decide), FP_IP_comp, permute_id64 b h]

/-- The initial permutation undoes the final permutation. -/
theorem permute_IP_FP (b : List Bool) (h : b.length = 64) :
    permute IP (permute FP b) = b := by
  rw [permute_permute IP FP b (by decide), IP_FP_comp, permute_id64 b h]

/-- A DES block operation always outputs 64 bits. -/
theorem length_desBlockWith (ks : List (List Bool)) (b : List Bool) :
    (desBlockWith ks b).length = 64 := by
  rw [desBlockWith, length_permute]
  rfl

/-- DES block decryption inverts block encryption. -/
theorem decryptBlock_encryptBlock (key block : List Bool) (h : block.length = 64) :
    decryptBlock key (encryptBlock key block) = block := by
  rw [encryptBlock, decryptBlock, desBlockWith, desBlockWith]
  have hbl : (permute IP block).length = 64 := by rw [length_permute]; rfl
  have hL : ((permute IP block).take 32).length = 32 := by
    simp [List.length_take, hbl]
  have hR : ((permute IP block).drop 32).length = 32 := by
    simp [List.length_drop, hbl]
  obtain ⟨h1, h2⟩ := desRounds_lengths (subkeys key) _ _ hL hR
  rw [permute_IP_FP _ (by rw [List.length_append, h1, h2])]
  rw [List.take_left' h2, List.drop_left' h2]
  rw [desRounds_reverse (subkeys key) _ _ hL hR]
  show permute FP ((permute IP block).take 32 ++ (permute IP block).drop 32) = block
  rw [List.take_append_drop, permute_FP_IP block h]

/-- Every CBC ciphertext block has 64 bits. -/
theorem cbcEncBlocks_lengths (key : List Bool) :
    ∀ (prev : List Bool) (ps : List (List Bool)),
    ∀ c ∈ cbcEncBlocks key prev ps, c.length = 64 := by
  intro prev ps
  induction ps generalizing prev with
  | nil => intro c hc; simp [cbcEncBlocks] at hc
  | cons p ps ih =>
      intro c hc
      rw [cbcEncBlocks] at hc
      rcases List.mem_cons.mp hc with h | h
      · subst h
        exact length_desBlockWith _ _
      · exact ih _ c h

/-- CBC encryption preserves the number of blocks. -/
theorem length_cbcEncBlocks (key : List Bool) :
    ∀ (prev : List Bool) (ps : List (List Bool)),
    (cbcEncBlocks key prev ps).length = ps.length := by
  intro prev ps
  induction ps generalizing prev with
  | nil => rfl
  | cons p ps ih =>
      rw [cbcEncBlocks, List.length_cons, List.length_cons, ih]

/-- CBC decryption inverts CBC encryption on 64-bit blocks. -/
theorem cbcDecBlocks_cbcEncBlocks (key : List Bool) :
    ∀ (ps : List (List Bool)) (prev : List Bool), prev.length = 64 →
    (∀ p ∈ ps, p.length = 64) →
    cbcDecBlocks key prev (cbcEncBlocks key prev ps) = ps := by
  intro ps
  induction ps with
  | nil => intro prev _ _; rfl
  | cons p ps ih =>
      intro prev hprev hall
      have hp : p.length = 64 := hall p (by simp)
      have hxl : (Linx.xorB p prev).length = 64 := by
        simp [Linx.length_xorB, hp, hprev]
      rw [cbcEncBlocks, cbcDecBlocks]
      rw [decryptBlock_encryptBlock key _ hxl,
        Linx.xorB_xorB p prev (by rw [hp, hprev])]
      exact congrArg (fun t => p :: t)
        (ih (encryptBlock key (Linx.xorB p prev))
          (length_desBlockWith (subkeys key) (Linx.xorB p prev))
          (fun q hq => hall q (by simp [hq])))

end DES

namespace Linx

/-- Every byte of a chunk is a byte of the original string. -/
theorem mem_of_mem_chunksOf8 (xs : List Nat) :
    ∀ c ∈ chunksOf 8 xs, ∀ b ∈ c, b ∈ xs := by
  by_cases hx : xs = []
  · subst hx
    simp [chunksOf_nil]
  · have hrec := mem_of_mem_chunksOf8 (xs.drop 8)
    rw [chunksOf_ne 8 (by omega) xs hx]
    intro c hc b hb
    rcases List.mem_cons.mp hc with h | h
    · subst h
      exact List.mem_of_mem_take hb
    · exact List.mem_of_mem_drop (hrec c h b hb)
termination_by xs.length
decreasing_by
  have hpos : 0 < xs.length := List.length_pos.mpr hx
  simp only [List.length_drop]
  omega

/-- The fixed key/IV bit string has 64 bits. -/
theorem length_key_bits : ((DES_KEY.map byteToBits).flatten).length = 64 := by decide

/-- The PKCS#7-padded plaintext has a length that is a positive multiple
of 8. -/
theorem padded_length (m : List Nat) :
    (m ++ List.replicate (8 - m.length % 8) (8 - m.length % 8)).length =
      m.length + (8 - m.length % 8) := by
  simp

/-- Every pre-encryption block of `des_encrypt` has 64 bits. -/
theorem des_encrypt_block_lengths (padded : List Nat) (hmod : padded.length % 8 = 0) :
    ∀ blk ∈ (chunksOf 8 padded).map (fun c => (c.map byteToBits).flatten),
      blk.length = 64 := by
  intro blk hblk
  rcases List.mem_map.mp hblk with ⟨c, hc, rfl⟩
  rw [length_flatten_byteToBits, chunksOf8_lengths padded hmod c hc]

/-- The ciphertext length of `des_encrypt` is the padded plaintext
length. -/
theorem length_des_encrypt (m : List Nat) :
    (des_encrypt m).length = m.length + (8 - m.length % 8) := by
  show (((DES.cbcEncBlocks _ _ _).map bitsToBytes).flatten).length = _
  rw [List.length_flatten, List.map_map]
  have hmod : (m ++ List.replicate (8 - m.length % 8) (8 - m.length % 8)).length % 8
      = 0 := by
    rw [padded_length]
    omega
  have hcong : ((chunksOf 8 (m ++ List.replicate (8 - m.length % 8)
        (8 - m.length % 8))).map (fun c => (c.map byteToBits).flatten)) =
      ((chunksOf 8 (m ++ List.replicate (8 - m.length % 8)
        (8 - m.length % 8))).map (fun c => (c.map byteToBits).flatten)) := rfl
  have hall : ∀ c ∈ DES.cbcEncBlocks ((DES_KEY.map byteToBits).flatten)
      ((DES_KEY.map byteToBits).flatten)
      ((chunksOf 8 (m ++ List.replicate (8 - m.length % 8)
        (8 - m.length % 8))).map (fun c => (c.map byteToBits).flatten)),
      c.length = 64 := DES.cbcEncBlocks_lengths _ _ _
  rw [List.map_congr_left (fun c hc => by
    show (List.length ∘ bitsToBytes) c = (fun _ => 8) c
    simp only [Function.comp_apply]
    exact length_bitsToBytes_mul 8 c (by rw [hall c hc]))]
  rw [List.map_const', List.sum_replicate, smul_eq_mul,
    DES.length_cbcEncBlocks, List.length_map, length_chunksOf8, padded_length]
  omega

/-- DES-CBC decryption recovers the PKCS#7-padded plaintext from
`des_encrypt`'s ciphertext. -/
theorem des_decrypt_raw_des_encrypt (m : List Nat) (hm : ∀ b ∈ m, b < 256) :
    des_decrypt_raw (des_encrypt m) =
      m ++ List.replicate (8 - m.length % 8) (8 - m.length % 8) := by
  have hmod : (m ++ List.replicate (8 - m.length % 8) (8 - m.length % 8)).length % 8
      = 0 := by
    rw [padded_length]
    omega
  have hpadbytes : ∀ b ∈ m ++ List.replicate (8 - m.length % 8) (8 - m.length % 8),
      b < 256 := by
    intro b hb
    rcases List.mem_append.mp hb with h | h
    · exact hm b h
    · rcases List.mem_replicate.mp h with ⟨_, rfl⟩
      omega
  have hblens := des_encrypt_block_lengths _ hmod
  have hctlens : ∀ c ∈ DES.cbcEncBlocks ((DES_KEY.map byteToBits).flatten)
      ((DES_KEY.map byteToBits).flatten)
      ((chunksOf 8 (m ++ List.replicate (8 - m.length % 8)
        (8 - m.length % 8))).map (fun c => (c.map byteToBits).flatten)),
      c.length = 64 := DES.cbcEncBlocks_lengths _ _ _
  show des_decrypt_raw (((DES.cbcEncBlocks _ _ _).map bitsToBytes).flatten) = _
  show (((DES.cbcDecBlocks ((DES_KEY.map byteToBits).flatten)
      ((DES_KEY.map byteToBits).flatten)
      ((chunksOf 8 (((DES.cbcEncBlocks _ _ _).map bitsToBytes).flatten)).map
        (fun c => (c.map byteToBits).flatten))).map bitsToBytes).flatten) = _
  rw [chunksOf8_flatten _ (by
    intro l hl
    rcases List.mem_map.mp hl with ⟨c, hc, rfl⟩
    exact length_bitsToBytes_mul 8 c (by rw [hctlens c hc]))]
  rw [List.map_map]
  have hinner : (DES.cbcEncBlocks ((DES_KEY.map byteToBits).flatten)
      ((DES_KEY.map byteToBits).flatten)
      ((chunksOf 8 (m ++ List.replicate (8 - m.length % 8)
        (8 - m.length % 8))).map (fun c => (c.map byteToBits).flatten))).map
        ((fun c => (c.map byteToBits).flatten) ∘ bitsToBytes) =
      DES.cbcEncBlocks ((DES_KEY.map byteToBits).flatten)
      ((DES_KEY.map byteToBits).flatten)
      ((chunksOf 8 (m ++ List.replicate (8 - m.length % 8)
        (8 - m.length % 8))).map (fun c => (c.map byteToBits).flatten)) := by
    have := List.map_congr_left (fun c hc => by
      show ((fun c => (c.map byteToBits).flatten) ∘ bitsToBytes) c = id c
      simp only [Function.comp_apply, id]
      exact flatten_byteToBits_bitsToBytes 8 c (by rw [hctlens c hc]))
    rw [this, List.map_id]
  rw [hinner]
  rw [DES.cbcDecBlocks_cbcEncBlocks _ _ _ length_key_bits hblens]
  rw [List.map_map]
  have houter : (chunksOf 8 (m ++ List.replicate (8 - m.length % 8)
      (8 - m.length % 8))).map
        (bitsToBytes ∘ (fun c => (c.map byteToBits).flatten)) =
      chunksOf 8 (m ++ List.replicate (8 - m.length % 8) (8 - m.length % 8)) := by
    have := List.map_congr_left (fun c hc => by
      show (bitsToBytes ∘ (fun c => (c.map byteToBits).flatten)) c = id c
      simp only [Function.comp_apply, id]
      exact bitsToBytes_flatten_byteToBits c
        (fun b hb => hpadbytes b (mem_of_mem_chunksOf8 _ c hc b hb)))
    rw [this, List.map_id]
  rw [houter, flatten_chunksOf 8 (by omega)]

/-! ## Command-frame lemmas -/

/-- Taking at most `m ≤ n` elements is unaffected by a `set` at `n`. -/
theorem take_set_of_le : ∀ (l : List Nat) (n m : Nat) (a : Nat), m ≤ n →
    (l.set n a).take m = l.take m := by
  intro l
  induction l with
  | nil => intro n m a _; rfl
  | cons x xs ih =>
      intro n m a h
      cases n with
      | zero =>
          have hm : m = 0 := by omega
          subst hm
          rfl
      | succ n =>
          rw [List.set_cons_succ]
          cases m with
          | zero => rfl
          | succ m =>
              rw [List.take_succ_cons, List.take_succ_cons, ih n m a (by omega)]

/-- Taking `n + 1` elements after a `set` at `n` appends the new value. -/
theorem take_set_succ : ∀ (l : List Nat) (n : Nat) (a : Nat), n < l.length →
    (l.set n a).take (n + 1) = l.take n ++ [a] := by
  intro l
  induction l with
  | nil => intro n a h; simp at h
  | cons x xs ih =>
      intro n a h
      cases n with
      | zero => rfl
      | succ n =>
          rw [List.set_cons_succ, List.take_succ_cons, List.take_succ_cons,
            ih n a (by simpa using h)]
          rfl

/-- The argument-copy loop preserves the buffer length. -/
theorem length_writeArgs : ∀ (args buf : List Nat) (i : Nat),
    (writeArgs buf args i).length = buf.length := by
  intro args
  induction args with
  | nil => intro buf i; rfl
  | cons b rest ih =>
      intro buf i
      show (writeArgs (if 8 + i < 500 then buf.set (8 + i) b else buf) rest
        (i + 1)).length = buf.length
      rw [ih]
      split <;> simp [List.length_set]

/-- Characterisation of the argument-copy loop when the arguments fit. -/
theorem writeArgs_eq : ∀ (args buf : List Nat) (i : Nat),
    buf.length = 500 → 8 + i + args.length ≤ 500 →
    writeArgs buf args i =
      buf.take (8 + i) ++ args ++ buf.drop (8 + i + args.length) := by
  intro args
  induction args with
  | nil =>
      intro buf i hb hle
      show buf = buf.take (8 + i) ++ [] ++ buf.drop (8 + i + List.length [])
      simp only [List.length_nil, Nat.add_zero, List.append_nil]
      exact (List.take_append_drop (8 + i) buf).symm
  | cons b rest ih =>
      intro buf i hb hle
      have hlen : (b :: rest).length = rest.length + 1 := rfl
      have hlt : 8 + i < 500 := by rw [hlen] at hle; omega
      show writeArgs (if 8 + i < 500 then buf.set (8 + i) b else buf) rest (i + 1) = _
      rw [if_pos hlt]
      rw [ih (buf.set (8 + i) b) (i + 1) (by rw [List.length_set, hb])
        (by rw [hlen] at hle; omega)]
      have h1 : 8 + (i + 1) = (8 + i) + 1 := by omega
      rw [h1, take_set_succ buf (8 + i) b (by omega)]
      rw [List.drop_set, if_pos (by omega)]
      have h2 : 8 + i + 1 + rest.length = 8 + i + (b :: rest).length := by
        rw [hlen]
        omega
      rw [h2]
      simp [List.append_assoc, List.singleton_append]

/-- The timestamp field is 4 bytes. -/
theorem length_tsBytes (ts : Nat) : (tsBytes ts).length = 4 := rfl

/-- The plaintext buffer is always exactly 500 bytes. -/
theorem length_headerPlain (cmd : Nat) (args : List Nat) (ts : Nat) :
    (headerPlain cmd args ts).length = 500 := by
  rw [headerPlain, length_writeArgs, List.length_append, List.length_append,
    List.length_replicate, length_tsBytes]
  rfl

/-- Explicit layout of the plaintext when the arguments fit in the
492-byte region. -/
theorem headerPlain_eq (cmd : Nat) (args : List Nat) (ts : Nat)
    (h : args.length ≤ 492) :
    headerPlain cmd args ts =
      [cmd % 256, 0, 0x1A, 0x6D] ++ tsBytes ts ++ args ++
        List.replicate (492 - args.length) 0 := by
  have hbase : ([cmd % 256, 0, 0x1A, 0x6D] ++ tsBytes ts ++
      List.replicate 492 0).length = 500 := by
    rw [List.length_append, List.length_append, List.length_replicate,
      length_tsBytes]
    rfl
  rw [headerPlain, writeArgs_eq args _ 0 hbase (by omega)]
  have hsplit : [cmd % 256, 0, 0x1A, 0x6D] ++ tsBytes ts ++
      List.replicate 492 0 =
      ([cmd % 256, 0, 0x1A, 0x6D] ++ tsBytes ts) ++ List.replicate 492 0 := by
    rw [List.append_assoc]
  have hlen8 : ([cmd % 256, 0, 0x1A, 0x6D] ++ tsBytes ts).length = 8 := by
    rw [List.length_append, length_tsBytes]
    rfl
  rw [hsplit]
  have htake : (([cmd % 256, 0, 0x1A, 0x6D] ++ tsBytes ts) ++
      List.replicate 492 0).take (8 + 0) = [cmd % 256, 0, 0x1A, 0x6D] ++ tsBytes ts :=
    List.take_left' hlen8
  have hdropidx : 8 + 0 + args.length = ([cmd % 256, 0, 0x1A, 0x6D] ++
      tsBytes ts).length + args.length := by
    rw [hlen8]
  have hdrop : (([cmd % 256, 0, 0x1A, 0x6D] ++ tsBytes ts) ++
      List.replicate 492 0).drop (8 + 0 + args.length) =
      List.replicate (492 - args.length) 0 := by
    rw [hdropidx, List.drop_append, List.drop_replicate]
  rw [htake, hdrop, List.append_assoc]

/-- Explicit form of the 512-byte frame: the full 504-byte ciphertext,
8 zero bytes, and the trailer overwrite at positions 510 and 511. -/
theorem make_header_eq (cmd : Nat) (args : List Nat) (ts : Nat) :
    make_header cmd args ts =
      ((des_encrypt (headerPlain cmd args ts) ++ List.replicate 8 0).set 510
        0xA1).set 511 0x1A := by
  have hlen : (des_encrypt (headerPlain cmd args ts)).length = 504 := by
    rw [length_des_encrypt, length_headerPlain]
  show (((des_encrypt (headerPlain cmd args ts)).take 512 ++
      List.replicate (512 - ((des_encrypt (headerPlain cmd args ts)).take
        512).length) 0).set 510 0xA1).set 511 0x1A = _
  rw [List.take_of_length_le (by rw [hlen]; omega), hlen]

/-- The ciphertext is 504 bytes. -/
theorem length_frame_ciphertext (cmd : Nat) (args : List Nat) (ts : Nat) :
    (des_encrypt (headerPlain cmd args ts)).length = 504 := by
  rw [length_des_encrypt, length_headerPlain]

/-- The first 504 frame bytes are exactly the ciphertext. -/
theorem make_header_take_504 (cmd : Nat) (args : List Nat) (ts : Nat) :
    (make_header cmd args ts).take 504 = des_encrypt (headerPlain cmd args ts) := by
  rw [make_header_eq, take_set_of_le _ 511 504 _ (by omega),
    take_set_of_le _ 510 504 _ (by omega),
    List.take_left' (length_frame_ciphertext cmd args ts)]

/-- The frame is always exactly 512 bytes. -/
theorem length_make_header (cmd : Nat) (args : List Nat) (ts : Nat) :
    (make_header cmd args ts).length = 512 := by
  rw [make_header_eq, List.length_set, List.length_set, List.length_append,
    length_frame_ciphertext, List.length_replicate]

/-- The trailer bytes of the frame. -/
theorem make_header_trailer (cmd : Nat) (args : List Nat) (ts : Nat) :
    (make_header cmd args ts).getD 510 0 = 0xA1 ∧
    (make_header cmd args ts).getD 511 0 = 0x1A := by
  have hlen : (des_encrypt (headerPlain cmd args ts) ++
      List.replicate 8 0).length = 512 := by
    rw [List.length_append, length_frame_ciphertext, List.length_replicate]
  rw [make_header_eq]
  constructor
  · rw [List.getD_eq_getElem?_getD, List.getElem?_set, if_neg (by omega),
      List.getElem?_set, if_pos rfl, if_pos (by omega)]
    rfl
  · rw [List.getD_eq_getElem?_getD, List.getElem?_set, if_pos rfl,
      if_pos (by rw [List.length_set]; omega)]
    rfl

/-- Frame bytes 504..509 are the zero filler, untouched by the trailer
overwrite. -/
theorem make_header_filler (cmd : Nat) (args : List Nat) (ts : Nat) :
    ((make_header cmd args ts).drop 504).take 6 = List.replicate 6 0 := by
  rw [make_header_eq, List.drop_set, if_neg (by omega), List.drop_set,
    if_neg (by omega)]
  rw [List.drop_left' (length_frame_ciphertext cmd args ts)]
  rw [take_set_of_le _ (511 - 504) 6 _ (by omega),
    take_set_of_le _ (510 - 504) 6 _ (by omega), List.take_replicate]
  rfl

end Linx

namespace Linx

/-- Every byte of the plaintext buffer is a genuine byte value. -/
theorem headerPlain_bytes_lt (cmd : Nat) (args : List Nat) (ts : Nat)
    (hargs : args.length ≤ 492) (hbytes : ∀ b ∈ args, b < 256) :
    ∀ b ∈ headerPlain cmd args ts, b < 256 := by
  intro b hb
  rw [headerPlain_eq cmd args ts hargs] at hb
  simp only [tsBytes, List.mem_append, List.mem_cons, List.not_mem_nil,
    or_false, List.mem_replicate] at hb
  casesm* _ ∨ _, _ ∧ _
  all_goals first
    | omega
    | exact hbytes b (by assumption)

end Linx

/-! # Claims -/

namespace Linx

/-- C1: for every command byte `cmd` and every argument byte string `args`
with `|args| ≤ 492` (and any timestamp), `_make_header` returns exactly
512 bytes whose bytes 510 and 511 equal `0xA1` and `0x1A` respectively. -/
theorem C1_frame_length_and_trailer (cmd : Nat) (args : List Nat) (ts : Nat)
    (h : args.length ≤ 492) :
    (make_header cmd args ts).length = 512 ∧
    (make_header cmd args ts).getD 510 0 = 0xA1 ∧
    (make_header cmd args ts).getD 511 0 = 0x1A :=
  ⟨length_make_header cmd args ts, make_header_trailer cmd args ts⟩

/-- Witness for C1 at `cmd = 1`, `args = [2, 3]`, `ts = 7`. -/
theorem C1_witness :
    ([2, 3] : List Nat).length ≤ 492 ∧
    ((make_header 1 [2, 3] 7).length = 512 ∧
      (make_header 1 [2, 3] 7).getD 510 0 = 0xA1 ∧
      (make_header 1 [2, 3] 7).getD 511 0 = 0x1A) :=
  ⟨by decide, C1_frame_length_and_trailer 1 [2, 3] 7 (by decide)⟩

/-- C2: DES-CBC decrypting the ciphertext region (frame bytes 0..503) of
the frame built by `_make_header` with key = IV = `"slv3tuzx"` recovers a
plaintext whose first 8 bytes are `[cmd, 0x00, 0x1A, 0x6D, t0, t1, t2, t3]`
(`t0..t3` the little-endian timestamp), followed by `args` at offset 8,
zeros up to the PKCS#7 pad, and the pad `[4, 4, 4, 4]`. -/
theorem C2_decrypt_roundtrip (cmd : Nat) (args : List Nat) (ts : Nat)
    (hargs : args.length ≤ 492) (hbytes : ∀ b ∈ args, b < 256)
    (hcmd : cmd < 256) (hts : ts < 2 ^ 32) :
    des_decrypt_raw ((make_header cmd args ts).take 504) =
      [cmd, 0, 0x1A, 0x6D] ++ tsBytes ts ++ args ++
        List.replicate (492 - args.length) 0 ++ [4, 4, 4, 4] := by
  rw [make_header_take_504]
  rw [des_decrypt_raw_des_encrypt _ (headerPlain_bytes_lt cmd args ts hargs hbytes)]
  rw [length_headerPlain]
  have hpad : (8 - 500 % 8) = 4 := by norm_num
  rw [hpad]
  have hrep : List.replicate 4 (4 : Nat) = [4, 4, 4, 4] := rfl
  rw [hrep, headerPlain_eq cmd args ts hargs, Nat.mod_eq_of_lt hcmd]

/-- Witness for C2 at `cmd = 5`, `args = [9, 250]`, `ts = 70000`. -/
theorem C2_witness :
    (([9, 250] : List Nat).length ≤ 492 ∧ (∀ b ∈ ([9, 250] : List Nat), b < 256) ∧
      (5 : Nat) < 256 ∧ (70000 : Nat) < 2 ^ 32) ∧
    des_decrypt_raw ((make_header 5 [9, 250] 70000).take 504) =
      [5, 0, 0x1A, 0x6D] ++ tsBytes 70000 ++ [9, 250] ++
        List.replicate 490 0 ++ [4, 4, 4, 4] :=
  ⟨⟨by decide, by decide, by decide, by decide⟩,
    C2_decrypt_roundtrip 5 [9, 250] 70000 (by decide) (by decide) (by decide)
      (by decide)⟩

/-- C3 (counterexample): already at `cmd = 0`, `args = []`, `ts = 0` the
claim fails — the CBC ciphertext is 504 bytes (not 512), and the frame's
bytes 0..503 are exactly that whole ciphertext, so no ciphertext byte is
absent from the transmitted frame; the trailer at 510..511 overwrites zero
filler, not ciphertext. -/
theorem C3_counterexample :
    (des_encrypt (headerPlain 0 [] 0)).length = 504 ∧
    (make_header 0 [] 0).take 504 = des_encrypt (headerPlain 0 [] 0) :=
  ⟨length_frame_ciphertext 0 [] 0, make_header_take_504 0 [] 0⟩

/-- C3 (amended): the 500-byte plaintext encrypts to a 504-byte CBC
ciphertext which is transmitted in full as frame bytes 0..503; bytes
504..509 are zero filler and the trailer overwrite at 510..511 replaces
zero filler, never ciphertext. -/
theorem C3_amended_trailer_overwrites_zeros (cmd : Nat) (args : List Nat)
    (ts : Nat) :
    (des_encrypt (headerPlain cmd args ts)).length = 504 ∧
    (make_header cmd args ts).take 504 = des_encrypt (headerPlain cmd args ts) ∧
    ((make_header cmd args ts).drop 504).take 6 = List.replicate 6 0 ∧
    (make_header cmd args ts).getD 510 0 = 0xA1 ∧
    (make_header cmd args ts).getD 511 0 = 0x1A :=
  ⟨length_frame_ciphertext cmd args ts, make_header_take_504 cmd args ts,
    make_header_filler cmd args ts, make_header_trailer cmd args ts⟩

end Linx

namespace Linx

/-- The polling loop performs at most `fuel` additional polls. -/
theorem wait_buffer_go_le (polls : Nat → Option (List Nat)) (bufIdx maxB : Nat) :
    ∀ (fuel i : Nat), wait_buffer_go polls bufIdx maxB i fuel ≤ i + fuel := by
  intro fuel
  induction fuel with
  | zero =>
      intro i
      simp [wait_buffer_go]
  | succ fuel ih =>
      intro i
      rw [wait_buffer_go]
      split
      · omega
      · have := ih (i + 1)
        omega

/-- The polling loop stops right after the first successful poll. -/
theorem wait_buffer_go_stop (polls : Nat → Option (List Nat)) (bufIdx maxB : Nat) :
    ∀ (fuel i j : Nat), i ≤ j → j < i + fuel →
    (∀ k, i ≤ k → k < j → wait_ok (polls k) bufIdx maxB = false) →
    wait_ok (polls j) bufIdx maxB = true →
    wait_buffer_go polls bufIdx maxB i fuel = j + 1 := by
  intro fuel
  induction fuel with
  | zero =>
      intro i j h1 h2 _ _
      omega
  | succ fuel ih =>
      intro i j hij hlt hfalse htrue
      rw [wait_buffer_go]
      by_cases hi : wait_ok (polls i) bufIdx maxB = true
      · rw [if_pos hi]
        have hieq : i = j := by
          by_contra hne
          have hlt2 : i < j := by omega
          rw [hfalse i (Nat.le_refl i) hlt2] at hi
          simp at hi
        omega
      · rw [if_neg hi]
        have hij2 : i < j := by
          rcases Nat.lt_or_ge i j with h | h
          · exact h
          · have heq : i = j := by omega
            subst heq
            exact absurd htrue hi
        exact ih (i + 1) j (by omega) (by omega)
          (fun k hk1 hk2 => hfalse k (by omega) hk2) htrue

/-- Reading a `replicate` at an in-range index. -/
theorem getD_replicate (n i : Nat) (a d : Nat × Nat × Nat) (h : i < n) :
    (List.replicate n a).getD i d = a := by
  rw [List.getD_eq_getElem?_getD, List.getElem?_replicate, if_pos h]
  rfl

/-- The LED packet for a uniform 60-entry colour list. -/
theorem led_packet_replicate (gr : Nat) (hgr : gr < 3) (c : Nat × Nat × Nat) :
    led_packet gr (List.replicate 60 c) =
      [17, gr * 20, 0, 0] ++
        (List.replicate 20 [c.1 % 256, c.2.1 % 256, c.2.2 % 256]).flatten := by
  rw [led_packet]
  refine congrArg (fun t => _ ++ List.flatten t) ?_
  apply List.ext_getElem
  · simp [LEDS_PER_GROUP]
  · intro i h1 h2
    simp only [List.getElem_map, List.getElem_range, List.getElem_replicate]
    have hi20 : i < 20 := by
      simpa [LEDS_PER_GROUP] using h2
    have hidx : gr * LEDS_PER_GROUP + i < (List.replicate 60 c).length := by
      simp only [List.length_replicate, LEDS_PER_GROUP]
      omega
    simp only [if_pos hidx]
    rw [getD_replicate 60 _ c (0, 0, 0)
      (by simpa using hidx)]

/-- Flattening a replicate of replicates. -/
theorem flatten_replicate_replicate {α : Type} (n m : Nat) (a : α) :
    (List.replicate n (List.replicate m a)).flatten = List.replicate (n * m) a := by
  induction n with
  | zero => simp
  | succ n ih =>
      rw [List.replicate_succ, List.flatten_cons, ih]
      rw [show (n + 1) * m = m + n * m by ring, List.replicate_add]

/-- Length of an LED packet: always 64 bytes. -/
theorem length_led_packet (gr : Nat) (leds : List (Nat × Nat × Nat)) :
    (led_packet gr leds).length = 64 := by
  rw [led_packet, List.length_append, List.length_flatten, List.map_map]
  have hconst : ∀ i ∈ List.range LEDS_PER_GROUP,
      (List.length ∘ fun i =>
        if gr * LEDS_PER_GROUP + i < leds.length then
          [(leds.getD (gr * LEDS_PER_GROUP + i) (0, 0, 0)).1 % 256,
           (leds.getD (gr * LEDS_PER_GROUP + i) (0, 0, 0)).2.1 % 256,
           (leds.getD (gr * LEDS_PER_GROUP + i) (0, 0, 0)).2.2 % 256]
        else [0, 0, 0]) i = (fun _ => 3) i := by
    intro i _
    simp only [Function.comp_apply]
    split <;> rfl
  rw [List.map_congr_left hconst, List.map_const', List.length_range]
  rfl

end Linx

namespace Linx

/-- C4 (counterexample): a well-formed response reporting the positive size
1 leaves the stored capacity at 1, not at `max(1, 202752) = 202752`: the
code stores any positive reported size as-is, with no `max` against the
default. -/
theorem C4_counterexample :
    h264_size [0, 0, 0, 0, 0, 0, 0, 0, 0, 0, 0, 1] = 1 ∧
    (check_h264_block (some [0, 0, 0, 0, 0, 0, 0, 0, 0, 0, 0, 1])
      default_h264_buf_len).2 = 1 ∧
    (1 : Nat) ≠ max 1 default_h264_buf_len := by
  refine ⟨by decide, by decide, by decide⟩

/-- C4 (amended): a positive parsed size replaces the stored capacity
exactly (no `max` with the default); an unanswerable query — missing or
short response, or parsed size 0 — leaves the capacity unchanged, in
particular at its default 202752. -/
theorem C4_amended_capacity (r : List Nat) (cur : Nat) :
    (11 < r.length → 0 < h264_size r →
      check_h264_block (some r) cur = (h264_size r, h264_size r)) ∧
    (11 < r.length → h264_size r = 0 →
      check_h264_block (some r) cur = (cur, cur)) ∧
    (r.length ≤ 11 → check_h264_block (some r) cur = (cur, cur)) ∧
    check_h264_block none cur = (cur, cur) := by
  refine ⟨?_, ?_, ?_, rfl⟩
  · intro h11 hpos
    have hne : r ≠ [] := by
      intro h
      subst h
      simp at h11
    show (if r ≠ [] ∧ 11 < r.length then
        if 0 < h264_size r then (h264_size r, h264_size r) else (cur, cur)
      else (cur, cur)) = _
    rw [if_pos ⟨hne, h11⟩, if_pos hpos]
  · intro h11 hzero
    have hne : r ≠ [] := by
      intro h
      subst h
      simp at h11
    show (if r ≠ [] ∧ 11 < r.length then
        if 0 < h264_size r then (h264_size r, h264_size r) else (cur, cur)
      else (cur, cur)) = _
    rw [if_pos ⟨hne, h11⟩, if_neg (by omega)]
  · intro hle
    show (if r ≠ [] ∧ 11 < r.length then
        if 0 < h264_size r then (h264_size r, h264_size r) else (cur, cur)
      else (cur, cur)) = _
    rw [if_neg (fun h => absurd h.2 (by omega))]

/-- Witness for C4 (amended) at a response reporting size 65536 with the
default capacity as current state. -/
theorem C4_witness :
    (11 < ([0, 0, 0, 0, 0, 0, 0, 0, 0, 1, 0, 0] : List Nat).length ∧
      0 < h264_size [0, 0, 0, 0, 0, 0, 0, 0, 0, 1, 0, 0]) ∧
    check_h264_block (some [0, 0, 0, 0, 0, 0, 0, 0, 0, 1, 0, 0]) 202752 =
      (h264_size [0, 0, 0, 0, 0, 0, 0, 0, 0, 1, 0, 0],
       h264_size [0, 0, 0, 0, 0, 0, 0, 0, 0, 1, 0, 0]) :=
  ⟨⟨by decide, by decide⟩,
    (C4_amended_capacity [0, 0, 0, 0, 0, 0, 0, 0, 0, 1, 0, 0] 202752).1
      (by decide) (by decide)⟩

/-- C5: the slot-specific depth offsets are 8 for command 121, 9 for 119
and 10 for 120; after a chunk, the flow-control wait triggers exactly when
the response depth at that offset exceeds 3 (depth ≤ 3 means zero polls
before the next file read); the wait polls `query_block` at most 200
times; and it returns right after the first poll whose depth at the same
offset is ≤ 2. -/
theorem C5_flow_control :
    (play_buf_idx 121 = 8 ∧ play_buf_idx 119 = 9 ∧ play_buf_idx 120 = 10) ∧
    (∀ (r : List Nat) (playCmd : Nat), play_buf_idx playCmd < r.length →
      (chunk_triggers_wait (some r) (play_buf_idx playCmd) = true ↔
        3 < r.getD (play_buf_idx playCmd) 0)) ∧
    (∀ (resp : Option (List Nat)) (polls : Nat → Option (List Nat))
      (playCmd : Nat),
      chunk_triggers_wait resp (play_buf_idx playCmd) = false →
      chunk_step_polls resp polls playCmd = 0) ∧
    (∀ (polls : Nat → Option (List Nat)) (maxBlocks playCmd : Nat),
      wait_buffer polls maxBlocks playCmd ≤ 200) ∧
    (∀ (resp : Option (List Nat)) (polls : Nat → Option (List Nat))
      (playCmd j : Nat),
      chunk_triggers_wait resp (play_buf_idx playCmd) = true →
      j < 200 →
      (∀ i, i < j → wait_ok (polls i) (play_buf_idx playCmd) 2 = false) →
      wait_ok (polls j) (play_buf_idx playCmd) 2 = true →
      chunk_step_polls resp polls playCmd = j + 1) := by
  refine ⟨⟨rfl, rfl, rfl⟩, ?_, ?_, ?_, ?_⟩
  · intro r playCmd hlen
    have hne : r ≠ [] := by
      intro h
      subst h
      simp at hlen
    simp [chunk_triggers_wait, hlen, hne]
  · intro resp polls playCmd hfalse
    rw [chunk_step_polls, if_neg (by rw [hfalse]; simp)]
  · intro polls maxBlocks playCmd
    have := wait_buffer_go_le polls (play_buf_idx playCmd) maxBlocks 200 0
    rw [wait_buffer]
    omega
  · intro resp polls playCmd j htrig hj hfalse htrue
    rw [chunk_step_polls, if_pos htrig, wait_buffer]
    exact wait_buffer_go_stop polls (play_buf_idx playCmd) 2 200 0 j
      (by omega) (by omega) (fun k _ hk => hfalse k hk) htrue

/-- Witness for C5: with command 121 (offset 8), a chunk response of depth
5 triggers the wait, the first two polls report depth 9, the third reports
depth 1 ≤ 2, and exactly 3 polls are performed. -/
theorem C5_witness :
    chunk_triggers_wait (some [0, 0, 0, 0, 0, 0, 0, 0, 5]) (play_buf_idx 121)
      = true ∧
    (2 : Nat) < 200 ∧
    (∀ i, i < 2 → wait_ok ((fun i => if i = 2 then
        some [0, 0, 0, 0, 0, 0, 0, 0, 1]
      else some [0, 0, 0, 0, 0, 0, 0, 0, 9]) i) (play_buf_idx 121) 2 = false) ∧
    wait_ok ((fun i => if i = 2 then some [0, 0, 0, 0, 0, 0, 0, 0, 1]
      else some [0, 0, 0, 0, 0, 0, 0, 0, 9]) 2) (play_buf_idx 121) 2 = true ∧
    chunk_step_polls (some [0, 0, 0, 0, 0, 0, 0, 0, 5])
      (fun i => if i = 2 then some [0, 0, 0, 0, 0, 0, 0, 0, 1]
        else some [0, 0, 0, 0, 0, 0, 0, 0, 9]) 121 = 2 + 1 :=
  ⟨by decide, by decide, by decide, by decide,
    C5_flow_control.2.2.2.2 (some [0, 0, 0, 0, 0, 0, 0, 0, 5])
      (fun i => if i = 2 then some [0, 0, 0, 0, 0, 0, 0, 0, 1]
        else some [0, 0, 0, 0, 0, 0, 0, 0, 9]) 121 2
      (by decide) (by decide) (by decide) (by decide)⟩

/-- C6: `set_brightness` emits `min(100, max(0, level))` (−5 ↦ 0,
150 ↦ 100, 50 ↦ 50) and `set_framerate` emits `min(99, max(1, fps))`
(0 ↦ 1, 100 ↦ 99); out-of-range inputs are clamped into range rather than
rejected. -/
theorem C6_clamping (level fps : Int) :
    set_brightness_arg level = min 100 (max 0 level) ∧
    set_framerate_arg fps = min 99 (max 1 fps) ∧
    set_brightness_arg (-5) = 0 ∧ set_brightness_arg 150 = 100 ∧
    set_brightness_arg 50 = 50 ∧
    set_framerate_arg 0 = 1 ∧ set_framerate_arg 100 = 99 ∧
    0 ≤ set_brightness_arg level ∧ set_brightness_arg level ≤ 100 ∧
    1 ≤ set_framerate_arg fps ∧ set_framerate_arg fps ≤ 99 := by
  unfold set_brightness_arg set_framerate_arg
  refine ⟨by omega, by omega, by decide, by decide, by decide, by decide,
    by decide, by omega, by omega, by omega, by omega⟩

/-- C9: for a missing file, `play_h264` returns a failure result with no
USB activity whatsoever: no capacity query, no payload packet, no
flow-control poll, and no `stop_play`. -/
theorem C9_missing_file (fileBytes : List Nat) (bufLen playCmd : Nat)
    (resps : Nat → Option (List Nat)) (polls : Nat → Nat → Option (List Nat)) :
    play_h264_run false fileBytes bufLen playCmd resps polls = (false, []) := rfl

end Linx

namespace Linx

/-- Explicit packet list of `set_all` for genuine byte components. -/
theorem set_all_eq (r g b : Nat) (hr : r < 256) (hg : g < 256) (hb : b < 256) :
    set_all r g b =
      [[17, 0, 0, 0] ++ (List.replicate 20 [r, g, b]).flatten,
       [17, 20, 0, 0] ++ (List.replicate 20 [r, g, b]).flatten,
       [17, 40, 0, 0] ++ (List.replicate 20 [r, g, b]).flatten] := by
  have hpk : ∀ gr : Nat, gr < 3 → led_packet gr (List.replicate 60 (r, g, b)) =
      [17, gr * 20, 0, 0] ++ (List.replicate 20 [r, g, b]).flatten := by
    intro gr hgr
    rw [led_packet_replicate gr hgr (r, g, b)]
    dsimp only
    rw [Nat.mod_eq_of_lt hr, Nat.mod_eq_of_lt hg, Nat.mod_eq_of_lt hb]
  show [led_packet 0 (List.replicate 60 (r, g, b)),
        led_packet 1 (List.replicate 60 (r, g, b)),
        led_packet 2 (List.replicate 60 (r, g, b))] = _
  rw [hpk 0 (by omega), hpk 1 (by omega), hpk 2 (by omega)]

/-- Two colour lists that agree on the first 60 positions (presence and
value) produce identical packets. -/
theorem led_packet_congr (gr : Nat) (hgr : gr < 3)
    (leds leds2 : List (Nat × Nat × Nat))
    (h : ∀ idx, idx < 60 →
      (if idx < leds.length then
        let c := leds.getD idx (0, 0, 0)
        [c.1 % 256, c.2.1 % 256, c.2.2 % 256]
       else [0, 0, 0]) =
      (if idx < leds2.length then
        let c := leds2.getD idx (0, 0, 0)
        [c.1 % 256, c.2.1 % 256, c.2.2 % 256]
       else [0, 0, 0])) :
    led_packet gr leds = led_packet gr leds2 := by
  rw [led_packet, led_packet]
  refine congrArg (fun t => _ ++ List.flatten t) ?_
  apply List.map_congr_left
  intro i hi
  have hi20 : i < 20 := by
    have := List.mem_range.mp hi
    simpa [LEDS_PER_GROUP] using this
  have hidx : gr * LEDS_PER_GROUP + i < 60 := by
    simp only [LEDS_PER_GROUP]
    omega
  exact h _ hidx

end Linx

namespace Linx

/-- C7: `set_all(r, g, b)` emits exactly three 64-byte packets, groups in
order 0, 1, 2; the packet for group `g` starts with `[17, 20·g, 0, 0]` and
carries 20 consecutive `(r, g, b)` triples at bytes 4..63, so the
concatenated colour regions hold exactly 60 repetitions of `(r, g, b)`;
`off()` emits the same three packets with all-zero colour regions. -/
theorem C7_led_packets (r g b : Nat) (hr : r < 256) (hg : g < 256)
    (hb : b < 256) :
    set_all r g b =
      [[17, 0, 0, 0] ++ (List.replicate 20 [r, g, b]).flatten,
       [17, 20, 0, 0] ++ (List.replicate 20 [r, g, b]).flatten,
       [17, 40, 0, 0] ++ (List.replicate 20 [r, g, b]).flatten] ∧
    ((set_all r g b).map (fun p => p.drop 4)).flatten =
      (List.replicate 60 [r, g, b]).flatten ∧
    (set_all r g b).map List.length = [64, 64, 64] ∧
    led_off =
      [[17, 0, 0, 0] ++ List.replicate 60 0,
       [17, 20, 0, 0] ++ List.replicate 60 0,
       [17, 40, 0, 0] ++ List.replicate 60 0] := by
  have hmain := set_all_eq r g b hr hg hb
  have hdrop : ∀ x : Nat,
      ([17, x, 0, 0] ++ (List.replicate 20 [r, g, b]).flatten).drop 4 =
      (List.replicate 20 [r, g, b]).flatten := fun x => List.drop_left' rfl
  refine ⟨hmain, ?_, ?_, ?_⟩
  · rw [hmain]
    rw [List.map_cons, List.map_cons, List.map_cons, List.map_nil,
      hdrop 0, hdrop 20, hdrop 40]
    have h60 : List.replicate 60 [r, g, b] =
        List.replicate 20 [r, g, b] ++
          (List.replicate 20 [r, g, b] ++ List.replicate 20 [r, g, b]) := by
      rw [← List.replicate_add, ← List.replicate_add]
    rw [h60, List.flatten_append, List.flatten_append]
    rw [List.flatten_cons, List.flatten_cons, List.flatten_cons, List.flatten_nil,
      List.append_nil]
  · show [led_packet 0 (List.replicate 60 (r, g, b)),
        led_packet 1 (List.replicate 60 (r, g, b)),
        led_packet 2 (List.replicate 60 (r, g, b))].map List.length = [64, 64, 64]
    rw [List.map_cons, List.map_cons, List.map_cons, List.map_nil,
      length_led_packet, length_led_packet, length_led_packet]
  · have hz : (List.replicate 20 [(0 : Nat), 0, 0]).flatten =
        List.replicate 60 0 := by
      rw [show [(0 : Nat), 0, 0] = List.replicate 3 0 from rfl,
        flatten_replicate_replicate]
    show set_all 0 0 0 = _
    rw [set_all_eq 0 0 0 (by omega) (by omega) (by omega), hz]

/-- Witness for C7 at the spec's scenario `set_all(200, 100, 50)`. -/
theorem C7_witness :
    ((200 : Nat) < 256 ∧ (100 : Nat) < 256 ∧ (50 : Nat) < 256) ∧
    (set_all 200 100 50 =
      [[17, 0, 0, 0] ++ (List.replicate 20 [200, 100, 50]).flatten,
       [17, 20, 0, 0] ++ (List.replicate 20 [200, 100, 50]).flatten,
       [17, 40, 0, 0] ++ (List.replicate 20 [200, 100, 50]).flatten] ∧
    ((set_all 200 100 50).map (fun p => p.drop 4)).flatten =
      (List.replicate 60 [200, 100, 50]).flatten ∧
    (set_all 200 100 50).map List.length = [64, 64, 64] ∧
    led_off =
      [[17, 0, 0, 0] ++ List.replicate 60 0,
       [17, 20, 0, 0] ++ List.replicate 60 0,
       [17, 40, 0, 0] ++ List.replicate 60 0]) :=
  ⟨⟨by decide, by decide, by decide⟩,
    C7_led_packets 200 100 50 (by decide) (by decide) (by decide)⟩

/-- C10: `set_leds` is total over lists of any length: it always emits
exactly three 64-byte packets; colour positions beyond the input list keep
the zero fill (padding with zero-colour entries changes nothing); and
entries at index 60 or above never influence any packet. -/
theorem C10_set_leds_total (leds : List (Nat × Nat × Nat)) :
    (set_leds leds).length = 3 ∧
    (set_leds leds).map List.length = [64, 64, 64] ∧
    set_leds leds = set_leds (leds.take 60) ∧
    set_leds leds = set_leds (leds ++ List.replicate (60 - leds.length) (0, 0, 0)) := by
  refine ⟨rfl, ?_, ?_, ?_⟩
  · show [led_packet 0 leds, led_packet 1 leds, led_packet 2 leds].map
        List.length = [64, 64, 64]
    rw [List.map_cons, List.map_cons, List.map_cons, List.map_nil,
      length_led_packet, length_led_packet, length_led_packet]
  · have htake : ∀ gr : Nat, gr < 3 →
        led_packet gr leds = led_packet gr (leds.take 60) := by
      intro gr hgr
      apply led_packet_congr gr hgr
      intro idx hidx
      by_cases hlen : idx < leds.length
      · rw [if_pos hlen, if_pos (by simp only [List.length_take]; omega)]
        have hget : (leds.take 60).getD idx (0, 0, 0) = leds.getD idx (0, 0, 0) := by
          rw [List.getD_eq_getElem?_getD, List.getD_eq_getElem?_getD,
            List.getElem?_take, if_pos hidx]
        rw [hget]
      · rw [if_neg hlen, if_neg (by simp only [List.length_take]; omega)]
    show [led_packet 0 leds, led_packet 1 leds, led_packet 2 leds] =
      [led_packet 0 (leds.take 60), led_packet 1 (leds.take 60),
       led_packet 2 (leds.take 60)]
    rw [htake 0 (by omega), htake 1 (by omega), htake 2 (by omega)]
  · have hpad : ∀ gr : Nat, gr < 3 → led_packet gr leds =
        led_packet gr (leds ++ List.replicate (60 - leds.length) (0, 0, 0)) := by
      intro gr hgr
      apply led_packet_congr gr hgr
      intro idx hidx
      by_cases hlen : idx < leds.length
      · rw [if_pos hlen,
          if_pos (by simp only [List.length_append, List.length_replicate]; omega)]
        have hget : (leds ++ List.replicate (60 - leds.length) (0, 0, 0)).getD idx
            (0, 0, 0) = leds.getD idx (0, 0, 0) := by
          rw [List.getD_eq_getElem?_getD, List.getD_eq_getElem?_getD,
            List.getElem?_append, if_pos hlen]
        rw [hget]
      · rw [if_neg hlen]
        by_cases h60 : leds.length ≤ 60
        · rw [if_pos (by simp only [List.length_append, List.length_replicate]; omega)]
          have hget : (leds ++ List.replicate (60 - leds.length) (0, 0, 0)).getD idx
              (0, 0, 0) = (0, 0, 0) := by
            rw [List.getD_eq_getElem?_getD,
              List.getElem?_append_right (by omega), List.getElem?_replicate,
              if_pos (by omega)]
            rfl
          rw [hget]
          rfl
        · rw [if_neg (by simp only [List.length_append, List.length_replicate]; omega)]
    show [led_packet 0 leds, led_packet 1 leds, led_packet 2 leds] = _
    rw [hpad 0 (by omega), hpad 1 (by omega), hpad 2 (by omega)]
    rfl

end Linx

namespace Linx

/-- The sampler always returns exactly the requested number of colours. -/
theorem length_sample_edge_colors (img : Img) (n : Nat) :
    (sample_edge_colors img n).length = n := by
  rw [sample_edge_colors, List.length_map, List.length_range]

/-- Every sample position lies strictly inside the frame. -/
theorem edgePoint_lt (w h : Nat) (pos : ℚ) (hw : 0 < w) (hh : 0 < h)
    (h0 : 0 ≤ pos) (hp : pos < 2 * ((w : ℚ) + (h : ℚ))) :
    (edgePoint w h pos).1 < w ∧ (edgePoint w h pos).2 < h := by
  rw [edgePoint]
  split
  · rename_i hb
    have hfl : ⌊pos⌋ < (w : Int) := by
      rw [Int.floor_lt]
      push_cast
      exact hb
    have h0' : (0 : Int) ≤ ⌊pos⌋ := Int.floor_nonneg.mpr h0
    constructor
    · show (⌊pos⌋).toNat < w
      omega
    · show h - 1 < h
      omega
  · split
    · constructor
      · show w - 1 < w
        omega
      · show h - 1 - _ < h
        have := Nat.sub_le (h - 1) ((⌊pos - (w : ℚ)⌋).toNat)
        omega
    · split
      · constructor
        · show w - 1 - _ < w
          have := Nat.sub_le (w - 1) ((⌊pos - (w : ℚ) - (h : ℚ)⌋).toNat)
          omega
        · show (0 : Nat) < h
          omega
      · rename_i hb1 hb2 hb3
        constructor
        · show (0 : Nat) < w
          omega
        · show (⌊pos - 2 * (w : ℚ) - (h : ℚ)⌋).toNat < h
          have hge : 2 * (w : ℚ) + (h : ℚ) ≤ pos := le_of_not_lt hb3
          have hfl : ⌊pos - 2 * (w : ℚ) - (h : ℚ)⌋ < (h : Int) := by
            rw [Int.floor_lt]
            push_cast
            linarith
          have h0' : (0 : Int) ≤ ⌊pos - 2 * (w : ℚ) - (h : ℚ)⌋ := by
            apply Int.floor_nonneg.mpr
            linarith
          omega

/-- Cropping a uniform image gives a uniform pixel list of the region's
size. -/
theorem cropPixels_const (w h : Nat) (c : Nat × Nat × Nat) (x0 y0 x1 y1 : Nat) :
    cropPixels (constImg w h c) x0 y0 x1 y1 =
      List.replicate ((y1 - y0) * (x1 - x0)) c := by
  rw [cropPixels]
  have hrow : ∀ dy ∈ List.range (y1 - y0),
      (List.range (x1 - x0)).map
        (fun dx => (constImg w h c).px (x0 + dx) (y0 + dy)) =
      (fun _ => List.replicate (x1 - x0) c) dy := by
    intro dy _
    rw [show (fun dx => (constImg w h c).px (x0 + dx) (y0 + dy)) =
        (fun _ : Nat => c) from rfl, List.map_const', List.length_range]
  rw [List.map_congr_left hrow, List.map_const', List.length_range,
    flatten_replicate_replicate]

/-- Sampling a uniform image at an interior point returns the colour
exactly (integer averaging is exact on uniform input). -/
theorem samplePoint_const (w h : Nat) (c : Nat × Nat × Nat) (cx cy : Nat)
    (hx : cx - 4 < w) (hy : cy - 4 < h) :
    samplePoint (constImg w h c) cx cy = c := by
  rw [samplePoint]
  have hW : (constImg w h c).w = w := rfl
  have hH : (constImg w h c).h = h := rfl
  rw [hW, hH]
  have hk : 0 < (min h (cy - 4 + 8) - (cy - 4)) * (min w (cx - 4 + 8) - (cx - 4)) := by
    have h1 : cy - 4 < min h (cy - 4 + 8) := by omega
    have h2 : cx - 4 < min w (cx - 4 + 8) := by omega
    have := Nat.mul_pos (by omega : 0 < min h (cy - 4 + 8) - (cy - 4))
      (by omega : 0 < min w (cx - 4 + 8) - (cx - 4))
    exact this
  rw [cropPixels_const]
  rw [if_neg (by
    rw [List.isEmpty_iff]
    intro hc
    have := congrArg List.length hc
    rw [List.length_replicate] at this
    simp at this
    omega)]
  rw [List.map_replicate, List.map_replicate, List.map_replicate,
    List.sum_replicate, List.sum_replicate, List.sum_replicate,
    List.length_replicate, smul_eq_mul, smul_eq_mul, smul_eq_mul,
    Nat.mul_div_cancel_left _ hk, Nat.mul_div_cancel_left _ hk,
    Nat.mul_div_cancel_left _ hk]

/-- On the uniform 480×1920 frame with 60 LEDs the sampler returns 60
copies of the colour. -/
theorem sample_edge_colors_const (c : Nat × Nat × Nat) :
    sample_edge_colors (constImg 480 1920 c) 60 = List.replicate 60 c := by
  show (List.range 60).map (fun (i : Nat) =>
    let pos := (i : ℚ) * (((2 * (480 + 1920) : Nat) : ℚ) / ((60 : Nat) : ℚ))
    let point := edgePoint 480 1920 pos
    samplePoint (constImg 480 1920 c) point.1 point.2) = List.replicate 60 c
  have hbody : ∀ i ∈ List.range 60, (fun (i : Nat) =>
      let pos := (i : ℚ) * (((2 * (480 + 1920) : Nat) : ℚ) / ((60 : Nat) : ℚ))
      let point := edgePoint 480 1920 pos
      samplePoint (constImg 480 1920 c) point.1 point.2) i =
      (fun _ => c) i := by
    intro i hi
    have hi60 : i < 60 := List.mem_range.mp hi
    dsimp only
    have hstep : (((2 * (480 + 1920) : Nat) : ℚ) / ((60 : Nat) : ℚ)) = 80 := by
      norm_num
    rw [hstep]
    have hpos0 : (0 : ℚ) ≤ (i : ℚ) * 80 := by positivity
    have hposlt : (i : ℚ) * 80 < 2 * (((480 : Nat) : ℚ) + ((1920 : Nat) : ℚ)) := by
      have hc : (i : ℚ) < 60 := by exact_mod_cast hi60
      push_cast
      linarith
    obtain ⟨hcx, hcy⟩ := edgePoint_lt 480 1920 ((i : ℚ) * 80) (by omega) (by omega)
      hpos0 hposlt
    exact samplePoint_const 480 1920 c _ _
      (Nat.lt_of_le_of_lt (Nat.sub_le _ _) hcx)
      (Nat.lt_of_le_of_lt (Nat.sub_le _ _) hcy)
  rw [List.map_congr_left hbody, List.map_const', List.length_range]

/-- C8: on a uniform-colour 480×1920 image with 60 requested LEDs the edge
sampler returns exactly 60 triples, each equal to the colour (integer
averaging is exact on uniform input); and in general the output length
always equals the requested `num_leds`. -/
theorem C8_edge_sampler (c : Nat × Nat × Nat) (img : Img) (n : Nat) :
    sample_edge_colors (constImg 480 1920 c) 60 = List.replicate 60 c ∧
    (sample_edge_colors img n).length = n :=
  ⟨sample_edge_colors_const c, length_sample_edge_colors img n⟩

end Linx
